import Mathlib

/-!
# Verification of the image-compressor transform pipeline

A shallow embedding of the resize-and-recode transform and its presentation
glue (file upload, batch compression, savings display, download naming) from
the single source component, together with proofs of the spec's testable
properties.

Modelling conventions:
* JavaScript floating-point arithmetic on dimensions is embedded as exact
  arithmetic over `ℚ`; assigning a non-integer value to a canvas dimension
  truncates toward zero (the HTML `unsigned long` coercion), embedded as
  `Int.floor` followed by `Int.toNat` (all values involved are nonnegative).
* A decoded image is represented by its native pixel dimensions; a source
  that the host cannot decode carries no dimensions (`decodesTo = none`).
  The code installs only an `onload` handler on the `Image` object, so for
  an undecodable source the promise returned by `compressImage` never
  settles; this outcome is the `pending` constructor below.
* The host call `canvas.toBlob` invokes its callback with `null` when the
  canvas has zero area; the code resolves with that value unchecked, so a
  resolved outcome carries an `Option` blob.
* Encoded byte sizes are host-encoder dependent; they are abstracted by a
  parameter `blobSize : BlobM → ℕ` wherever the code reads `blob.size`.
* JavaScript `Math.round` rounds half toward positive infinity, embedded as
  `jsRound`.
-/

/-- A user-supplied file: name, byte size, MIME type, and — standing in for
the host decoder — the native pixel dimensions it decodes to, or `none` when
the data is corrupt/unsupported. -/
structure FileM where
  name : String
  size : Nat
  type : String
  decodesTo : Option (Nat × Nat)
  deriving DecidableEq

/-- An encoded output blob, identified by the pixel dimensions, format and
quality it was encoded from (`canvas.toBlob(cb, format, quality/100)`). -/
structure BlobM where
  width : Nat
  height : Nat
  format : String
  quality : Nat
  deriving DecidableEq

/-- The per-image list entry (source lines 11-18, `interface
CompressedImage`). -/
structure CompressedImage where
  id : String
  originalFile : FileM
  compressedBlob : Option BlobM
  originalSize : Nat
  compressedSize : Option Nat
  preview : String
  deriving DecidableEq

/-- Target-dimension computation of `compressImage` (source lines 55-70):
with `maintainAspectRatio`, `ratio = Math.min(maxWidth/width,
maxHeight/height)` and both dimensions are scaled by `ratio` only when
`ratio < 1`; without it the target is exactly `(maxWidth, maxHeight)`.  The
scaled values are floats assigned to `canvas.width`/`canvas.height`, which
truncates them to integers. -/
def computeDims (W H maxW maxH : Nat) (maintain : Bool) : Nat × Nat :=
  if maintain then
    let ratio : ℚ := min ((maxW : ℚ) / (W : ℚ)) ((maxH : ℚ) / (H : ℚ))
    if ratio < 1 then
      ((⌊(W : ℚ) * ratio⌋).toNat, (⌊(H : ℚ) * ratio⌋).toNat)
    else (W, H)
  else (maxW, maxH)

/-- Outcome of one `compressImage` promise: it either never settles
(undecodable source — only `onload` is installed, no `onerror`) or resolves
with the canvas dimensions and the blob `toBlob` produced (`none` for a
zero-area canvas). -/
inductive CompressOutcome where
  | pending
  | resolved (w h : Nat) (blob : Option BlobM)
  deriving DecidableEq

/-- The transform `compressImage` (source lines 48-82): decode, compute
target dimensions, draw, and encode via `canvas.toBlob`. -/
def compressImage (file : FileM) (quality maxW maxH : Nat) (format : String)
    (maintain : Bool) : CompressOutcome :=
  match file.decodesTo with
  | none => .pending
  | some (W, H) =>
      let wh := computeDims W H maxW maxH maintain
      .resolved wh.1 wh.2
        (if wh.1 = 0 ∨ wh.2 = 0 then none
         else some ⟨wh.1, wh.2, format, quality⟩)

/-- Outcome of one mapped callback inside `handleCompress` (source lines
89-106): the awaited `compressImage` promise may never settle (`pending`);
reading `compressed.size` off a `null` blob raises a `TypeError`, rejecting
that mapped promise (`threw`); otherwise the callback returns an entry
(`ok`). -/
inductive EntryOutcome where
  | pending
  | threw
  | ok (img : CompressedImage)
  deriving DecidableEq

/-- True exactly for `threw`. -/
def entryThrew : EntryOutcome → Bool
  | .threw => true
  | _ => false

/-- True exactly for `pending`. -/
def entryPending : EntryOutcome → Bool
  | .pending => true
  | _ => false

/-- The entry carried by an `ok` outcome. -/
def entryResult : EntryOutcome → Option CompressedImage
  | .ok img => some img
  | _ => none

/-- The callback mapped over `images` inside `handleCompress` (source lines
89-106): an entry that already has a `compressedBlob` is returned unchanged;
otherwise `compressImage` is awaited and a fresh entry is built with
`{...img, compressedBlob, compressedSize}`. -/
def processEntry (blobSize : BlobM → Nat) (quality maxW maxH : Nat)
    (format : String) (maintain : Bool) (img : CompressedImage) : EntryOutcome :=
  match img.compressedBlob with
  | some _ => .ok img
  | none =>
      match compressImage img.originalFile quality maxW maxH format maintain with
      | .pending => .pending
      | .resolved _ _ none => .threw
      | .resolved _ _ (some b) =>
          .ok { img with compressedBlob := some b, compressedSize := some (blobSize b) }

/-- Outcome of `handleCompress` (source lines 84-123): `Promise.all` rejects
as soon as any mapped promise rejects (the `catch` block shows one error
toast and `setImages` is never called: `failed`); if no promise rejects but
some never settles, `Promise.all` never settles and neither the `then`
continuation nor the `finally` block ever runs (`pending`); otherwise the
full fresh list is committed via `setImages` (`done`). -/
inductive BatchOutcome where
  | pending
  | failed
  | done (imgs : List CompressedImage)
  deriving DecidableEq

/-- The batch action `handleCompress` (source lines 84-123). -/
def handleCompress (blobSize : BlobM → Nat) (quality maxW maxH : Nat)
    (format : String) (maintain : Bool) (imgs : List CompressedImage) : BatchOutcome :=
  let outs := imgs.map (processEntry blobSize quality maxW maxH format maintain)
  if outs.any entryThrew then .failed
  else if outs.any entryPending then .pending
  else .done (outs.filterMap entryResult)

/-- The fresh list entry built for an accepted file in `handleFileUpload`
(source lines 38-43): a random id, the file itself, its byte size as
`originalSize`, an object URL as `preview`, and no compressed result.  The
random id and the object URL are abstracted by the parameters `mkId`
(applied to the accepted file's position) and `mkPreview`. -/
def mkUploadEntry (mkId : Nat → String) (mkPreview : FileM → String)
    (i : Nat) (f : FileM) : CompressedImage :=
  { id := mkId i, originalFile := f, compressedBlob := none,
    originalSize := f.size, compressedSize := none, preview := mkPreview f }

/-- JavaScript `String.prototype.startsWith`, at the character level. -/
def jsStartsWith (s p : String) : Bool := p.data.isPrefixOf s.data

/-- The upload handler `handleFileUpload` (source lines 30-46): every
selected file whose MIME type starts with `image/` is appended, in order, to
the current list; any other file is skipped without effect. -/
def handleFileUpload (mkId : Nat → String) (mkPreview : FileM → String)
    (prev : List CompressedImage) (files : List FileM) : List CompressedImage :=
  prev ++ ((files.filter (fun f => jsStartsWith f.type "image/")).enum.map
    (fun p => mkUploadEntry mkId mkPreview p.1 p.2))

/-- JavaScript `Math.round`: round half toward positive infinity. -/
def jsRound (x : ℚ) : ℤ := ⌊x + 1 / 2⌋

/-- The savings display `calculateSavings` (source lines 158-161).  The
guard `if (!compressed) return 0` is a JavaScript falsiness test: it fires
both when the compressed size is `undefined` and when it is the number `0`. -/
def calculateSavings (original : Nat) (compressed : Option Nat) : ℤ :=
  match compressed with
  | none => 0
  | some c =>
      if c = 0 then 0
      else jsRound ((((original : ℚ) - (c : ℚ)) / (original : ℚ)) * 100)

/-- Modelled from the spec: `calculateSavings(original, compressed)` equals
`round((original - compressed) / original * 100)`; returns `0` when the
compressed size is absent.  Stated verbatim from the spec's savings formula,
for comparison against the source's `calculateSavings`. -/
def specSavings (original : Nat) (compressed : Option Nat) : ℤ :=
  match compressed with
  | none => 0
  | some c => jsRound ((((original : ℚ) - (c : ℚ)) / (original : ℚ)) * 100)

/-- Characters of a JavaScript string before the first dot:
`name.split('.')[0]`. -/
def takeBeforeFirstDot : List Char → List Char
  | [] => []
  | c :: cs => if c = '.' then [] else c :: takeBeforeFirstDot cs

/-- JavaScript `name.split('.')[0]` as a string operation. -/
def jsSplitHead (s : String) : String := ⟨takeBeforeFirstDot s.data⟩

/-- The download action `handleDownload` (source lines 125-136): it returns
early when the entry has no compressed blob, and otherwise saves under the
name `compressed_${image.originalFile.name.split('.')[0]}.${outputFormat}`. -/
def handleDownloadName (image : CompressedImage) (outputFormat : String) : Option String :=
  match image.compressedBlob with
  | none => none
  | some _ =>
      some ("compressed_" ++ jsSplitHead image.originalFile.name ++ "." ++ outputFormat)

/-- Modelled from the spec: the original file's stem is the file name with
its final extension removed — everything before the last dot when the name
contains a dot, the whole name otherwise. -/
def specStem (s : String) : String :=
  if '.' ∈ s.data then ⟨((s.data.reverse.dropWhile fun c => c != '.').tail).reverse⟩
  else s

/-- Spec scenario: a 4000×2000 source under 1920×1080 with the aspect ratio
kept scales by `ratio = 0.48` to 1920×960. -/
theorem scenario_downscale : computeDims 4000 2000 1920 1080 true = (1920, 960) := by
  norm_num [computeDims, min_def]
  decide

/-- Spec scenario: an 800×600 source under 1920×1080 with the aspect ratio
kept is left at 800×600. -/
theorem scenario_noop : computeDims 800 600 1920 1080 true = (800, 600) := by
  norm_num [computeDims, min_def]

/-- Spec scenario: without the aspect-ratio policy an 800×600 source under
500×500 becomes exactly 500×500. -/
theorem scenario_exact : computeDims 800 600 500 500 false = (500, 500) := rfl

/-- Rounding error of the canvas-dimension truncation: the committed integer
dimension is within one pixel below the exact scaled value. -/
theorem floor_toNat_within_one (x : ℚ) (hx : 0 ≤ x) :
    |(((⌊x⌋).toNat : Nat) : ℚ) - x| < 1 := by
  have h0 : (0 : ℤ) ≤ ⌊x⌋ := Int.floor_nonneg.mpr hx
  have hcast : (((⌊x⌋).toNat : Nat) : ℚ) = ((⌊x⌋ : ℤ) : ℚ) := by
    exact_mod_cast congrArg (Int.cast : ℤ → ℚ) (Int.toNat_of_nonneg h0)
  rw [hcast, abs_sub_lt_iff]
  constructor <;> linarith [Int.floor_le x, Int.lt_floor_add_one x]

/-- Dimension law of `computeDims` under the aspect-ratio policy: both
output dimensions respect the maxima, never exceed the native size, and both
are within one pixel of `W·r` and `H·r` for one common positive scale
`r ≤ 1` (so the aspect ratio is preserved up to sub-pixel rounding). -/
theorem computeDims_aspect (W H maxW maxH : Nat) (hW : 0 < W) (hH : 0 < H)
    (hmW : 0 < maxW) (hmH : 0 < maxH) :
    (computeDims W H maxW maxH true).1 ≤ maxW ∧
    (computeDims W H maxW maxH true).2 ≤ maxH ∧
    (computeDims W H maxW maxH true).1 ≤ W ∧
    (computeDims W H maxW maxH true).2 ≤ H ∧
    ∃ r : ℚ, 0 < r ∧ r ≤ 1 ∧
      |(((computeDims W H maxW maxH true).1 : Nat) : ℚ) - (W : ℚ) * r| < 1 ∧
      |(((computeDims W H maxW maxH true).2 : Nat) : ℚ) - (H : ℚ) * r| < 1 := by
  have hWQ : (0 : ℚ) < (W : ℚ) := by exact_mod_cast hW
  have hHQ : (0 : ℚ) < (H : ℚ) := by exact_mod_cast hH
  have hmWQ : (0 : ℚ) < (maxW : ℚ) := by exact_mod_cast hmW
  have hmHQ : (0 : ℚ) < (maxH : ℚ) := by exact_mod_cast hmH
  set ratio : ℚ := min ((maxW : ℚ) / (W : ℚ)) ((maxH : ℚ) / (H : ℚ)) with hr
  have hrpos : 0 < ratio := lt_min (div_pos hmWQ hWQ) (div_pos hmHQ hHQ)
  by_cases hlt : ratio < 1
  · have hcd : computeDims W H maxW maxH true =
        ((⌊(W : ℚ) * ratio⌋).toNat, (⌊(H : ℚ) * ratio⌋).toNat) := by
      simp only [computeDims, if_true, ← hr, if_pos hlt]
    have hxW : (W : ℚ) * ratio ≤ (maxW : ℚ) := by
      have h1 : (W : ℚ) * ratio ≤ (W : ℚ) * ((maxW : ℚ) / (W : ℚ)) :=
        mul_le_mul_of_nonneg_left (min_le_left _ _) hWQ.le
      have h2 : (W : ℚ) * ((maxW : ℚ) / (W : ℚ)) = (maxW : ℚ) := by
        field_simp
      linarith
    have hxH : (H : ℚ) * ratio ≤ (maxH : ℚ) := by
      have h1 : (H : ℚ) * ratio ≤ (H : ℚ) * ((maxH : ℚ) / (H : ℚ)) :=
        mul_le_mul_of_nonneg_left (min_le_right _ _) hHQ.le
      have h2 : (H : ℚ) * ((maxH : ℚ) / (H : ℚ)) = (maxH : ℚ) := by
        field_simp
      linarith
    have hxW2 : (W : ℚ) * ratio ≤ (W : ℚ) := by
      have := mul_le_mul_of_nonneg_left hlt.le hWQ.le
      linarith
    have hxH2 : (H : ℚ) * ratio ≤ (H : ℚ) := by
      have := mul_le_mul_of_nonneg_left hlt.le hHQ.le
      linarith
    have hfloor_le : ∀ (x : ℚ) (n : Nat), x ≤ (n : ℚ) → (⌊x⌋).toNat ≤ n := by
      intro x n hxn
      rw [Int.toNat_le]
      calc ⌊x⌋ ≤ ⌊(n : ℚ)⌋ := Int.floor_le_floor hxn
        _ = (n : ℤ) := Int.floor_natCast n
    rw [hcd]
    refine ⟨hfloor_le _ _ hxW, hfloor_le _ _ hxH, hfloor_le _ _ hxW2, hfloor_le _ _ hxH2,
      ratio, hrpos, hlt.le, ?_, ?_⟩
    · exact floor_toNat_within_one _ (mul_nonneg hWQ.le hrpos.le)
    · exact floor_toNat_within_one _ (mul_nonneg hHQ.le hrpos.le)
  · have hcd : computeDims W H maxW maxH true = (W, H) := by
      simp only [computeDims, if_true, ← hr, if_neg hlt]
    have hge : (1 : ℚ) ≤ ratio := not_lt.mp hlt
    have hWle : W ≤ maxW := by
      have h1 : (1 : ℚ) ≤ (maxW : ℚ) / (W : ℚ) := le_trans hge (min_le_left _ _)
      have h2 : (W : ℚ) ≤ (maxW : ℚ) := (one_le_div hWQ).mp h1
      exact_mod_cast h2
    have hHle : H ≤ maxH := by
      have h1 : (1 : ℚ) ≤ (maxH : ℚ) / (H : ℚ) := le_trans hge (min_le_right _ _)
      have h2 : (H : ℚ) ≤ (maxH : ℚ) := (one_le_div hHQ).mp h1
      exact_mod_cast h2
    rw [hcd]
    exact ⟨hWle, hHle, le_refl _, le_refl _, 1, one_pos, le_refl _, by simp, by simp⟩

/-- No-op branch of `computeDims`: when the source already fits inside the
maxima, the ratio is at least 1 and both dimensions are kept unchanged. -/
theorem computeDims_noop (W H maxW maxH : Nat) (hW : 0 < W) (hH : 0 < H)
    (hWle : W ≤ maxW) (hHle : H ≤ maxH) :
    computeDims W H maxW maxH true = (W, H) := by
  have hWQ : (0 : ℚ) < (W : ℚ) := by exact_mod_cast hW
  have hHQ : (0 : ℚ) < (H : ℚ) := by exact_mod_cast hH
  have h1 : (1 : ℚ) ≤ (maxW : ℚ) / (W : ℚ) :=
    (one_le_div hWQ).mpr (by exact_mod_cast hWle)
  have h2 : (1 : ℚ) ≤ (maxH : ℚ) / (H : ℚ) :=
    (one_le_div hHQ).mpr (by exact_mod_cast hHle)
  have hmin : ¬ min ((maxW : ℚ) / (W : ℚ)) ((maxH : ℚ) / (H : ℚ)) < 1 :=
    not_lt.mpr (le_min h1 h2)
  simp only [computeDims, if_true, if_neg hmin]

/-- Shape of `compressImage` on a decodable source: it resolves with exactly
the dimensions given by `computeDims`. -/
theorem compressImage_decodable (f : FileM) (W H quality maxW maxH : Nat)
    (fmt : String) (m : Bool) (hdec : f.decodesTo = some (W, H)) :
    compressImage f quality maxW maxH fmt m =
      .resolved (computeDims W H maxW maxH m).1 (computeDims W H maxW maxH m).2
        (if (computeDims W H maxW maxH m).1 = 0 ∨ (computeDims W H maxW maxH m).2 = 0
         then none
         else some ⟨(computeDims W H maxW maxH m).1, (computeDims W H maxW maxH m).2,
                    fmt, quality⟩) := by
  simp only [compressImage, hdec]

/-- C1. For every source image of native dimensions W×H (W > 0, H > 0) and
every settings with maxWidth > 0, maxHeight > 0 and maintainAspectRatio =
true, the transform resolves with output dimensions (w, h) satisfying
w ≤ maxWidth, h ≤ maxHeight, w ≤ W and h ≤ H (never upscaled past native
size), and w/h equals W/H within rounding tolerance (< 1px): there is one
positive scale r ≤ 1 with w within 1px of W·r and h within 1px of H·r. -/
theorem transform_dims_aspect (f : FileM) (W H quality maxW maxH : Nat) (fmt : String)
    (hdec : f.decodesTo = some (W, H)) (hW : 0 < W) (hH : 0 < H)
    (hmW : 0 < maxW) (hmH : 0 < maxH) :
    ∃ w h blob, compressImage f quality maxW maxH fmt true = .resolved w h blob ∧
      w ≤ maxW ∧ h ≤ maxH ∧ w ≤ W ∧ h ≤ H ∧
      ∃ r : ℚ, 0 < r ∧ r ≤ 1 ∧
        |(w : ℚ) - (W : ℚ) * r| < 1 ∧ |(h : ℚ) - (H : ℚ) * r| < 1 := by
  obtain ⟨h1, h2, h3, h4, r, hr0, hr1, hrw, hrh⟩ :=
    computeDims_aspect W H maxW maxH hW hH hmW hmH
  exact ⟨(computeDims W H maxW maxH true).1, (computeDims W H maxW maxH true).2, _,
    compressImage_decodable f W H quality maxW maxH fmt true hdec,
    h1, h2, h3, h4, r, hr0, hr1, hrw, hrh⟩

/-- C1 witness: a 4000×2000 source under 1920×1080. -/
theorem transform_dims_aspect_witness :
    (⟨"photo.jpg", 1000, "image/jpeg", some (4000, 2000)⟩ : FileM).decodesTo
        = some (4000, 2000) ∧ 0 < 4000 ∧ 0 < 2000 ∧ 0 < 1920 ∧ 0 < 1080 ∧
    ∃ w h blob,
      compressImage ⟨"photo.jpg", 1000, "image/jpeg", some (4000, 2000)⟩
          80 1920 1080 "jpeg" true = .resolved w h blob ∧
      w ≤ 1920 ∧ h ≤ 1080 ∧ w ≤ 4000 ∧ h ≤ 2000 ∧
      ∃ r : ℚ, 0 < r ∧ r ≤ 1 ∧
        |(w : ℚ) - (4000 : ℚ) * r| < 1 ∧ |(h : ℚ) - (2000 : ℚ) * r| < 1 :=
  ⟨rfl, by decide, by decide, by decide, by decide,
    transform_dims_aspect ⟨"photo.jpg", 1000, "image/jpeg", some (4000, 2000)⟩
      4000 2000 80 1920 1080 "jpeg" rfl (by decide) (by decide) (by decide) (by decide)⟩

/-- C2. For every source image and every settings with maintainAspectRatio =
false, the transform resolves with output dimensions exactly
(maxWidth, maxHeight), regardless of the source's native size or aspect
ratio. -/
theorem transform_dims_exact (f : FileM) (W H quality maxW maxH : Nat) (fmt : String)
    (hdec : f.decodesTo = some (W, H)) :
    ∃ blob, compressImage f quality maxW maxH fmt false = .resolved maxW maxH blob :=
  ⟨_, compressImage_decodable f W H quality maxW maxH fmt false hdec⟩

/-- C2 witness: an 800×600 source forced to 500×500. -/
theorem transform_dims_exact_witness :
    (⟨"a.png", 9, "image/png", some (800, 600)⟩ : FileM).decodesTo = some (800, 600) ∧
    ∃ blob, compressImage ⟨"a.png", 9, "image/png", some (800, 600)⟩
        75 500 500 "png" false = .resolved 500 500 blob :=
  ⟨rfl, transform_dims_exact ⟨"a.png", 9, "image/png", some (800, 600)⟩
    800 600 75 500 500 "png" rfl⟩

/-- C3. For every source image of native dimensions W×H with W ≤ maxWidth
and H ≤ maxHeight, and maintainAspectRatio = true, the transform resolves
with output dimensions exactly (W, H): the scale ratio is clamped to 1 and
the image is never upscaled. -/
theorem transform_dims_noop (f : FileM) (W H quality maxW maxH : Nat) (fmt : String)
    (hdec : f.decodesTo = some (W, H)) (hW : 0 < W) (hH : 0 < H)
    (hWle : W ≤ maxW) (hHle : H ≤ maxH) :
    ∃ blob, compressImage f quality maxW maxH fmt true = .resolved W H blob := by
  have hc := compressImage_decodable f W H quality maxW maxH fmt true hdec
  rw [computeDims_noop W H maxW maxH hW hH hWle hHle] at hc
  exact ⟨_, hc⟩

/-- C3 witness: an 800×600 source under 1920×1080 is left at 800×600. -/
theorem transform_dims_noop_witness :
    (⟨"b.webp", 4, "image/webp", some (800, 600)⟩ : FileM).decodesTo = some (800, 600) ∧
    0 < 800 ∧ 0 < 600 ∧ 800 ≤ 1920 ∧ 600 ≤ 1080 ∧
    ∃ blob, compressImage ⟨"b.webp", 4, "image/webp", some (800, 600)⟩
        80 1920 1080 "webp" true = .resolved 800 600 blob :=
  ⟨rfl, by decide, by decide, by decide, by decide,
    transform_dims_noop ⟨"b.webp", 4, "image/webp", some (800, 600)⟩
      800 600 80 1920 1080 "webp" rfl (by decide) (by decide) (by decide) (by decide)⟩

/-- A corrupt source: the host decoder never fires `onload` for it. -/
def corruptFile : FileM := ⟨"broken.jpg", 500, "image/jpeg", none⟩

/-- A well-formed 800×600 source. -/
def smallFile : FileM := ⟨"pic.png", 700, "image/png", some (800, 600)⟩

/-- C5. The code reports none of the spec's failures: for an undecodable
source the `compressImage` promise never settles (the code installs no
`onerror` handler, so there is no `DecodeError`), and for a zero-area target
(`maxWidth = 0`) it resolves successfully with a `null` blob instead of
failing with `InvalidSettings`. -/
theorem transform_reports_no_error :
    compressImage corruptFile 80 1920 1080 "jpeg" true = .pending ∧
    compressImage smallFile 80 0 1080 "jpeg" false = .resolved 0 1080 none :=
  ⟨rfl, rfl⟩

/-- Batch entry #1: a fresh decodable 800×600 source. -/
def imgGood1 : CompressedImage :=
  ⟨"id1", ⟨"one.jpg", 100, "image/jpeg", some (800, 600)⟩, none, 100, none, "p1"⟩

/-- Batch entry #2: a fresh corrupt source. -/
def imgCorrupt : CompressedImage :=
  ⟨"id2", ⟨"two.jpg", 200, "image/jpeg", none⟩, none, 200, none, "p2"⟩

/-- Batch entry #3: a fresh decodable 640×480 source. -/
def imgGood3 : CompressedImage :=
  ⟨"id3", ⟨"three.jpg", 300, "image/jpeg", some (640, 480)⟩, none, 300, none, "p3"⟩

/-- C4. A corrupt source aborts its siblings: over the batch
[#1 good, #2 corrupt, #3 good] the whole `handleCompress` never completes
(`Promise.all` waits forever on #2's never-settling promise), so no result
at all is committed and no failure is reported — not 2 successes and 1
failure.  The same siblings without the corrupt source complete normally. -/
theorem batch_corrupt_aborts_all :
    handleCompress (fun b => b.width) 80 1000 1000 "jpeg" false
        [imgGood1, imgCorrupt, imgGood3] = .pending ∧
    handleCompress (fun b => b.width) 80 1000 1000 "jpeg" false
        [imgGood1, imgGood3] =
      .done
        [⟨"id1", ⟨"one.jpg", 100, "image/jpeg", some (800, 600)⟩,
          some ⟨1000, 1000, "jpeg", 80⟩, 100, some 1000, "p1"⟩,
         ⟨"id3", ⟨"three.jpg", 300, "image/jpeg", some (640, 480)⟩,
          some ⟨1000, 1000, "jpeg", 80⟩, 300, some 1000, "p3"⟩] :=
  ⟨rfl, rfl⟩

/-- C6 counterexample: at original = 100 and a present compressed size of 0,
the spec's formula gives round((100 - 0)/100·100) = 100, but the code's
falsiness guard `if (!compressed)` also fires on the number 0 and returns 0. -/
theorem calculateSavings_zero_counterexample :
    calculateSavings 100 (some 0) = 0 ∧ specSavings 100 (some 0) = 100 ∧
    calculateSavings 100 (some 0) ≠ specSavings 100 (some 0) := by
  have h1 : calculateSavings 100 (some 0) = 0 := rfl
  have h2 : specSavings 100 (some 0) = 100 := by
    norm_num [specSavings, jsRound]
  exact ⟨h1, h2, by rw [h1, h2]; decide⟩

/-- C6 (amended). `calculateSavings(original, compressed)` equals
round((original − compressed)/original · 100) whenever the compressed size
is present and nonzero, and returns 0 when the compressed size is absent
— or present but zero, where the code's falsiness guard departs from the
spec's formula. -/
theorem calculateSavings_matches_spec (original : Nat) (compressed : Option Nat) :
    (compressed = some 0 → calculateSavings original compressed = 0) ∧
    (compressed ≠ some 0 → calculateSavings original compressed
        = specSavings original compressed) := by
  constructor
  · rintro rfl
    rfl
  · intro hne
    match compressed with
    | none => rfl
    | some c =>
        have hc : c ≠ 0 := fun h => hne (by rw [h])
        simp only [calculateSavings, specSavings, if_neg hc]

/-- C6 witness: a present, nonzero compressed size follows the formula, and
a present zero one returns 0. -/
theorem calculateSavings_matches_spec_witness :
    ((some 50 : Option Nat) ≠ some 0 ∧
      calculateSavings 200 (some 50) = specSavings 200 (some 50)) ∧
    ((some 0 : Option Nat) = some 0 ∧ calculateSavings 200 (some 0) = 0) :=
  ⟨⟨by decide, (calculateSavings_matches_spec 200 (some 50)).2 (by decide)⟩,
   ⟨rfl, (calculateSavings_matches_spec 200 (some 0)).1 rfl⟩⟩

/-- When every element of the left part satisfies the predicate,
`dropWhile` over an append drops the whole left part. -/
theorem dropWhile_append_all (p : Char → Bool) :
    ∀ l r : List Char, (∀ x ∈ l, p x = true) →
      (l ++ r).dropWhile p = r.dropWhile p := by
  intro l
  induction l with
  | nil => intro r _; rfl
  | cons a l ih =>
      intro r h
      have ha : p a = true := h a (List.mem_cons_self a l)
      simp only [List.cons_append, List.dropWhile_cons, ha, if_true]
      exact ih r (fun x hx => h x (List.mem_cons_of_mem a hx))

/-- When some element of the left part falsifies the predicate, `dropWhile`
over an append stops inside the left part. -/
theorem dropWhile_append_mem (p : Char → Bool) :
    ∀ l r : List Char, (∃ x ∈ l, p x = false) →
      (l ++ r).dropWhile p = l.dropWhile p ++ r := by
  intro l
  induction l with
  | nil =>
      rintro r ⟨x, hx, _⟩
      cases hx
  | cons a l ih =>
      intro r h
      cases hpa : p a with
      | false => simp [List.dropWhile_cons, hpa]
      | true =>
          obtain ⟨x, hx, hpx⟩ := h
          have hxl : x ∈ l := by
            cases List.mem_cons.mp hx with
            | inl he => rw [he, hpa] at hpx; cases hpx
            | inr h2 => exact h2
          simp only [List.cons_append, List.dropWhile_cons, hpa, if_true]
          exact ih r ⟨x, hxl, hpx⟩

/-- Dropping the non-dot characters of a list that contains a dot stops at
a dot. -/
theorem dropWhile_mem_dot :
    ∀ l : List Char, '.' ∈ l →
      ∃ t, l.dropWhile (fun c => c != '.') = '.' :: t := by
  intro l
  induction l with
  | nil => intro h; cases h
  | cons a l ih =>
      intro h
      by_cases ha : a = '.'
      · subst ha
        exact ⟨l, by simp [List.dropWhile_cons]⟩
      · have h2 : '.' ∈ l := by
          cases List.mem_cons.mp h with
          | inl he => exact absurd he.symm ha
          | inr h3 => exact h3
        obtain ⟨t, ht⟩ := ih h2
        refine ⟨t, ?_⟩
        simpa [List.dropWhile_cons, ha] using ht

/-- With at most one dot in the name, the part before the first dot is
exactly the name with its final extension removed. -/
theorem takeBeforeFirstDot_eq_stem :
    ∀ cs : List Char, cs.count '.' ≤ 1 →
      takeBeforeFirstDot cs =
        (if '.' ∈ cs then ((cs.reverse.dropWhile fun c => c != '.').tail).reverse
         else cs) := by
  intro cs
  induction cs with
  | nil => intro _; rfl
  | cons c cs ih =>
      intro hcount
      by_cases hc : c = '.'
      · subst hc
        have hcnt : cs.count '.' = 0 := by
          rw [List.count_cons_self] at hcount
          omega
        have hnot : '.' ∉ cs := by
          rw [← List.count_eq_zero]
          exact hcnt
        rw [if_pos (List.mem_cons_self _ _)]
        have hlhs : takeBeforeFirstDot ('.' :: cs) = [] := by
          simp [takeBeforeFirstDot]
        rw [hlhs, List.reverse_cons,
          dropWhile_append_all _ _ _
            (fun x hx => by
              have : x ∈ cs := List.mem_reverse.mp hx
              have hxd : x ≠ '.' := fun he => hnot (he ▸ this)
              simpa using hxd)]
        simp [List.dropWhile_cons]
      · have hcnt : cs.count '.' ≤ 1 := by
          rw [List.count_cons_of_ne (fun he => hc he.symm)] at hcount
          exact hcount
        have ihh := ih hcnt
        have hlhs : takeBeforeFirstDot (c :: cs) = c :: takeBeforeFirstDot cs := by
          simp [takeBeforeFirstDot, hc]
        by_cases hmem : '.' ∈ cs
        · rw [if_pos (List.mem_cons_of_mem _ hmem)]
          rw [if_pos hmem] at ihh
          rw [hlhs, ihh, List.reverse_cons,
            dropWhile_append_mem _ _ _ ⟨'.', List.mem_reverse.mpr hmem, by simp⟩]
          obtain ⟨t, ht⟩ := dropWhile_mem_dot cs.reverse (List.mem_reverse.mpr hmem)
          rw [ht]
          simp
        · have hmem2 : '.' ∉ c :: cs := by
            intro h
            cases List.mem_cons.mp h with
            | inl he => exact hc he.symm
            | inr h3 => exact hmem h3
          rw [if_neg hmem2]
          rw [if_neg hmem] at ihh
          rw [hlhs, ihh]

/-- String form: with at most one dot, `name.split('.')[0]` equals the
spec's stem. -/
theorem jsSplitHead_eq_specStem (s : String) (h : s.data.count '.' ≤ 1) :
    jsSplitHead s = specStem s := by
  unfold jsSplitHead specStem
  have heq := takeBeforeFirstDot_eq_stem s.data h
  by_cases hm : '.' ∈ s.data
  · rw [if_pos hm] at heq ⊢
    rw [heq]
  · rw [if_neg hm] at heq ⊢
    rw [heq]

/-- C7 (amended). The per-image download names the produced file
`compressed_P.F` where `P` is the portion of the original file name before
its first dot (`name.split('.')[0]`); this equals the spec's stem — the
name with its final extension removed — exactly when the name contains at
most one dot. -/
theorem handleDownload_filename (image : CompressedImage) (fmt : String) (b : BlobM)
    (hb : image.compressedBlob = some b) :
    handleDownloadName image fmt =
      some ("compressed_" ++ jsSplitHead image.originalFile.name ++ "." ++ fmt) ∧
    (image.originalFile.name.data.count '.' ≤ 1 →
      handleDownloadName image fmt =
        some ("compressed_" ++ specStem image.originalFile.name ++ "." ++ fmt)) := by
  have h1 : handleDownloadName image fmt =
      some ("compressed_" ++ jsSplitHead image.originalFile.name ++ "." ++ fmt) := by
    simp only [handleDownloadName, hb]
  exact ⟨h1, fun hcount => by
    rw [h1, jsSplitHead_eq_specStem image.originalFile.name hcount]⟩

/-- A compressed entry whose original name carries two dots. -/
def multiDotEntry : CompressedImage :=
  ⟨"d1", ⟨"photo.final.jpg", 10, "image/jpeg", some (800, 600)⟩,
    some ⟨800, 600, "jpeg", 80⟩, 10, some 5, "p"⟩

/-- C7 counterexample: for the original name "photo.final.jpg" the stem (the
name with its final extension removed) is "photo.final", so the claim
demands "compressed_photo.final.jpeg" — but the code splits at the first
dot and produces "compressed_photo.jpeg". -/
theorem handleDownload_stem_counterexample :
    handleDownloadName multiDotEntry "jpeg" = some "compressed_photo.jpeg" ∧
    "compressed_" ++ specStem "photo.final.jpg" ++ "." ++ "jpeg"
        = "compressed_photo.final.jpeg" ∧
    handleDownloadName multiDotEntry "jpeg"
        ≠ some ("compressed_" ++ specStem "photo.final.jpg" ++ "." ++ "jpeg") := by
  refine ⟨?_, ?_, ?_⟩ <;> decide

/-- A compressed entry whose original name has a single dot. -/
def singleDotEntry : CompressedImage :=
  ⟨"d2", ⟨"pic.png", 10, "image/png", some (80, 60)⟩,
    some ⟨80, 60, "png", 80⟩, 10, some 5, "q"⟩

/-- C7 witness: on the single-dot name "pic.png" the download name matches
the spec's `compressed_<stem>.<format>` shape. -/
theorem handleDownload_filename_witness :
    singleDotEntry.compressedBlob = some ⟨80, 60, "png", 80⟩ ∧
    ("pic.png" : String).data.count '.' ≤ 1 ∧
    handleDownloadName singleDotEntry "png" =
      some ("compressed_" ++ specStem "pic.png" ++ "." ++ "png") :=
  ⟨rfl, by decide,
    (handleDownload_filename singleDotEntry "png" ⟨80, 60, "png", 80⟩ rfl).2 (by decide)⟩

/-- A callback outcome `ok j` leaves the source fields of the entry intact
and always carries a compressed blob: either the entry already had one and
is returned as-is, or a fresh entry is built by record update. -/
theorem processEntry_ok_fields (bs : BlobM → Nat) (q mw mh : Nat) (fmt : String)
    (m : Bool) (img j : CompressedImage)
    (h : processEntry bs q mw mh fmt m img = .ok j) :
    j.id = img.id ∧ j.originalFile = img.originalFile ∧
    j.originalSize = img.originalSize ∧ j.preview = img.preview ∧
    j.compressedBlob.isSome = true := by
  cases hcb : img.compressedBlob with
  | some b =>
      have h2 : processEntry bs q mw mh fmt m img = .ok img := by
        unfold processEntry
        rw [hcb]
      rw [h2] at h
      cases h
      exact ⟨rfl, rfl, rfl, rfl, by rw [hcb]; rfl⟩
  | none =>
      cases hci : compressImage img.originalFile q mw mh fmt m with
      | pending =>
          have h2 : processEntry bs q mw mh fmt m img = .pending := by
            unfold processEntry
            rw [hcb, hci]
          rw [h2] at h
          cases h
      | resolved w hh blob =>
          cases blob with
          | none =>
              have h2 : processEntry bs q mw mh fmt m img = .threw := by
                unfold processEntry
                rw [hcb, hci]
              rw [h2] at h
              cases h
          | some b =>
              have h2 : processEntry bs q mw mh fmt m img =
                  .ok { img with compressedBlob := some b, compressedSize := some (bs b) } := by
                unfold processEntry
                rw [hcb, hci]
              rw [h2] at h
              cases h
              exact ⟨rfl, rfl, rfl, rfl, rfl⟩

/-- An entry that already carries a compressed blob short-circuits the
callback: it is returned unchanged and `compressImage` is not consulted. -/
theorem processEntry_already (bs : BlobM → Nat) (q mw mh : Nat) (fmt : String)
    (m : Bool) (img : CompressedImage) (b : BlobM)
    (h : img.compressedBlob = some b) :
    processEntry bs q mw mh fmt m img = .ok img := by
  unfold processEntry
  rw [h]

/-- When no outcome threw and none is pending, every outcome is `ok` and
extracting the results preserves length and positions. -/
theorem filterMap_entryResult_all_ok :
    ∀ os : List EntryOutcome, os.any entryThrew = false → os.any entryPending = false →
      (os.filterMap entryResult).length = os.length ∧
      ∀ i (hi : i < os.length) (hj : i < (os.filterMap entryResult).length),
        os[i] = .ok (os.filterMap entryResult)[i] := by
  intro os
  induction os with
  | nil => intro _ _; exact ⟨rfl, fun i hi _ => absurd hi (Nat.not_lt_zero i)⟩
  | cons o os ih =>
      intro ht hp
      rw [List.any_cons, Bool.or_eq_false_iff] at ht hp
      obtain ⟨ht1, ht2⟩ := ht
      obtain ⟨hp1, hp2⟩ := hp
      cases o with
      | pending => simp [entryPending] at hp1
      | threw => simp [entryThrew] at ht1
      | ok img =>
          obtain ⟨hlen, hidx⟩ := ih ht2 hp2
          have hfm : ((EntryOutcome.ok img :: os).filterMap entryResult)
              = img :: os.filterMap entryResult := by
            simp [List.filterMap_cons, entryResult]
          rw [hfm]
          refine ⟨by simp [hlen], ?_⟩
          intro i hi hj
          cases i with
          | zero => rfl
          | succ n =>
              have hi2 : n < os.length := by
                simpa using Nat.lt_of_succ_lt_succ hi
              have hj2 : n < (os.filterMap entryResult).length := by
                have := Nat.lt_of_succ_lt_succ hj
                simpa [hfm] using hj
              exact hidx n hi2 hj2

/-- Characterization of a completed batch: no callback threw, none is
pending, and the committed list is the extracted `ok` results. -/
theorem handleCompress_done (bs : BlobM → Nat) (q mw mh : Nat) (fmt : String)
    (m : Bool) (imgs l : List CompressedImage)
    (h : handleCompress bs q mw mh fmt m imgs = .done l) :
    (imgs.map (processEntry bs q mw mh fmt m)).any entryThrew = false ∧
    (imgs.map (processEntry bs q mw mh fmt m)).any entryPending = false ∧
    l = (imgs.map (processEntry bs q mw mh fmt m)).filterMap entryResult := by
  simp only [handleCompress] at h
  by_cases h1 : (imgs.map (processEntry bs q mw mh fmt m)).any entryThrew = true
  · rw [if_pos h1] at h
    cases h
  · rw [if_neg h1] at h
    by_cases h2 : (imgs.map (processEntry bs q mw mh fmt m)).any entryPending = true
    · rw [if_pos h2] at h
      cases h
    · rw [if_neg h2] at h
      cases h
      exact ⟨Bool.eq_false_iff.mpr h1, Bool.eq_false_iff.mpr h2, rfl⟩

/-- Positionwise form of a completed batch: the i-th committed entry is the
`ok` result of the callback on the i-th source entry. -/
theorem handleCompress_done_entries (bs : BlobM → Nat) (q mw mh : Nat) (fmt : String)
    (m : Bool) (imgs l : List CompressedImage)
    (hdone : handleCompress bs q mw mh fmt m imgs = .done l) :
    l.length = imgs.length ∧
    ∀ i (hi : i < imgs.length) (hl : i < l.length),
      processEntry bs q mw mh fmt m imgs[i] = .ok l[i] := by
  obtain ⟨ht, hp, hleq⟩ := handleCompress_done bs q mw mh fmt m imgs l hdone
  subst hleq
  obtain ⟨hlen, hidx⟩ := filterMap_entryResult_all_ok _ ht hp
  rw [List.length_map] at hlen
  refine ⟨hlen, ?_⟩
  intro i hi hl
  have hmi : i < (imgs.map (processEntry bs q mw mh fmt m)).length := by
    rw [List.length_map]
    exact hi
  have h2 := hidx i hmi hl
  rw [List.getElem_map] at h2
  exact h2

/-- C8. Running the transform over a batch never mutates a source entry in
place: whenever `handleCompress` commits a list, it has one entry per source
entry, and each committed entry keeps the source entry's id, originalFile,
originalSize and preview unchanged with a fresh compressed result
(`compressedBlob`/`compressedSize`) attached alongside. -/
theorem handleCompress_preserves_entries (bs : BlobM → Nat) (q mw mh : Nat)
    (fmt : String) (m : Bool) (imgs l : List CompressedImage)
    (hdone : handleCompress bs q mw mh fmt m imgs = .done l) :
    l.length = imgs.length ∧
    ∀ i (hi : i < imgs.length) (hl : i < l.length),
      l[i].id = imgs[i].id ∧
      l[i].originalFile = imgs[i].originalFile ∧
      l[i].originalSize = imgs[i].originalSize ∧
      l[i].preview = imgs[i].preview ∧
      l[i].compressedBlob.isSome = true := by
  obtain ⟨hlen, hidx⟩ := handleCompress_done_entries bs q mw mh fmt m imgs l hdone
  refine ⟨hlen, ?_⟩
  intro i hi hl
  exact processEntry_ok_fields bs q mw mh fmt m imgs[i] l[i] (hidx i hi hl)

/-- An uncompressed decodable 30×20 source entry. -/
def preEntry : CompressedImage :=
  ⟨"w1", ⟨"w.jpg", 10, "image/jpeg", some (30, 20)⟩, none, 10, none, "pv"⟩

/-- The entry `preEntry` becomes after compression to 25×25. -/
def postEntry : CompressedImage :=
  ⟨"w1", ⟨"w.jpg", 10, "image/jpeg", some (30, 20)⟩, some ⟨25, 25, "jpeg", 80⟩,
    10, some 25, "pv"⟩

/-- C8 witness: compressing the singleton batch `[preEntry]` commits
`[postEntry]`, whose source fields match `preEntry`. -/
theorem handleCompress_preserves_entries_witness :
    handleCompress (fun b => b.width) 80 25 25 "jpeg" false [preEntry]
        = .done [postEntry] ∧
    (postEntry.id = preEntry.id ∧
     postEntry.originalFile = preEntry.originalFile ∧
     postEntry.originalSize = preEntry.originalSize ∧
     postEntry.preview = preEntry.preview ∧
     postEntry.compressedBlob.isSome = true) :=
  ⟨rfl, (handleCompress_preserves_entries (fun b => b.width) 80 25 25 "jpeg" false
    [preEntry] [postEntry] rfl).2 0 (by decide) (by decide)⟩

/-- A batch whose entries all carry a compressed blob completes immediately,
committing the same list: every callback short-circuits to `ok` unchanged. -/
theorem handleCompress_all_precompressed (bs : BlobM → Nat) (q mw mh : Nat)
    (fmt : String) (m : Bool) (l : List CompressedImage)
    (hall : ∀ img ∈ l, img.compressedBlob.isSome = true) :
    handleCompress bs q mw mh fmt m l = .done l := by
  have hmap : l.map (processEntry bs q mw mh fmt m)
      = l.map (fun i => EntryOutcome.ok i) := by
    apply List.map_congr_left
    intro img hm
    obtain ⟨b, hb⟩ := Option.isSome_iff_exists.mp (hall img hm)
    exact processEntry_already bs q mw mh fmt m img b hb
  have h1 : (l.map (fun i => EntryOutcome.ok i)).any entryThrew = false := by
    simp [List.any_map, entryThrew, Function.comp]
  have h2 : (l.map (fun i => EntryOutcome.ok i)).any entryPending = false := by
    simp [List.any_map, entryPending, Function.comp]
  have h3 : (l.map (fun i => EntryOutcome.ok i)).filterMap entryResult = l := by
    simp [List.filterMap_map, entryResult, Function.comp_def, List.filterMap_some]
  simp only [handleCompress, hmap, h1, h2, h3]
  simp

/-- C10. Compression is idempotent on already-compressed entries: every
entry carrying a `compressedBlob` is returned by the callback unchanged,
without invoking the transform; consequently, once a batch has completed,
re-running `handleCompress` with any settings commits the same list with
every previously compressed entry exactly as it was. -/
theorem handleCompress_idem (bs bs2 : BlobM → Nat) (q mw mh q2 mw2 mh2 : Nat)
    (fmt fmt2 : String) (m m2 : Bool) (imgs l : List CompressedImage)
    (hdone : handleCompress bs q mw mh fmt m imgs = .done l) :
    (∀ img ∈ l, processEntry bs2 q2 mw2 mh2 fmt2 m2 img = .ok img) ∧
    handleCompress bs2 q2 mw2 mh2 fmt2 m2 l = .done l := by
  obtain ⟨hlen, hidx⟩ := handleCompress_done_entries bs q mw mh fmt m imgs l hdone
  have hall : ∀ img ∈ l, img.compressedBlob.isSome = true := by
    intro img hm
    obtain ⟨i, hi, rfl⟩ := List.mem_iff_getElem.mp hm
    have h2 := hidx i (by omega) hi
    exact (processEntry_ok_fields bs q mw mh fmt m _ _ h2).2.2.2.2
  refine ⟨?_, handleCompress_all_precompressed bs2 q2 mw2 mh2 fmt2 m2 l hall⟩
  intro img hm
  obtain ⟨b, hb⟩ := Option.isSome_iff_exists.mp (hall img hm)
  exact processEntry_already bs2 q2 mw2 mh2 fmt2 m2 img b hb

/-- C10 witness: after compressing `[preEntry]` into `[postEntry]`, a second
run with entirely different settings commits `[postEntry]` unchanged. -/
theorem handleCompress_idem_witness :
    handleCompress (fun b => b.width) 80 25 25 "jpeg" false [preEntry]
        = .done [postEntry] ∧
    handleCompress (fun b => b.height) 50 900 900 "webp" true [postEntry]
        = .done [postEntry] :=
  ⟨rfl, (handleCompress_idem (fun b => b.width) (fun b => b.height) 80 25 25 50 900 900
    "jpeg" "webp" false true [preEntry] [postEntry] rfl).2⟩

/-- C9. For every file-upload event, exactly the files whose MIME type
starts with "image/" are appended to the image list, in their original
order: the existing entries are untouched, the appended entries' original
files are precisely the accepted files in order, and every appended entry
has `originalSize` equal to its file's byte size and no compressed result.
Files of any other type contribute no entry (and no error). -/
theorem handleFileUpload_spec (mkId : Nat → String) (mkPreview : FileM → String)
    (prev : List CompressedImage) (files : List FileM) :
    (handleFileUpload mkId mkPreview prev files).take prev.length = prev ∧
    ((handleFileUpload mkId mkPreview prev files).drop prev.length).map
        (fun e => e.originalFile) = files.filter (fun f => jsStartsWith f.type "image/") ∧
    ∀ e ∈ (handleFileUpload mkId mkPreview prev files).drop prev.length,
      e.originalSize = e.originalFile.size ∧ e.compressedBlob = none ∧
      e.compressedSize = none := by
  unfold handleFileUpload
  rw [List.take_left, List.drop_left]
  refine ⟨rfl, ?_, ?_⟩
  · rw [List.map_map]
    have hfn : ((fun e : CompressedImage => e.originalFile) ∘
        fun p : Nat × FileM => mkUploadEntry mkId mkPreview p.1 p.2)
          = fun p : Nat × FileM => p.2 := by
      funext p
      rfl
    rw [hfn]
    exact List.enum_map_snd _
  · intro e he
    obtain ⟨p, _, hpe⟩ := List.mem_map.mp he
    rw [← hpe]
    exact ⟨rfl, rfl, rfl⟩

/-- An image-typed file for the upload witness. -/
def fileImg : FileM := ⟨"cat.jpg", 123, "image/jpeg", some (10, 10)⟩

/-- A non-image file for the upload witness. -/
def filePdf : FileM := ⟨"doc.pdf", 456, "application/pdf", none⟩

/-- The entry the witness upload creates for `fileImg`. -/
def uploadedEntry : CompressedImage := mkUploadEntry (fun _ => "u") (fun _ => "v") 0 fileImg

/-- C9 witness: uploading [image, pdf] onto an empty list appends exactly
the image's entry, uncompressed, with its byte size recorded. -/
theorem handleFileUpload_spec_witness :
    uploadedEntry ∈ (handleFileUpload (fun _ => "u") (fun _ => "v") []
        [fileImg, filePdf]).drop ([] : List CompressedImage).length ∧
    (uploadedEntry.originalSize = uploadedEntry.originalFile.size ∧
     uploadedEntry.compressedBlob = none ∧ uploadedEntry.compressedSize = none) :=
  ⟨by decide,
    (handleFileUpload_spec (fun _ => "u") (fun _ => "v") [] [fileImg, filePdf]).2.2
      uploadedEntry (by decide)⟩
